import Mathlib

/-!
Verification of the natural-language specification of `terraform_utils/hcl.go`
against a shallow embedding of that file.

Modelling conventions:
* Go strings are modelled as `List Char`.  All the byte-level operations that
  `hcl.go` performs on its inputs (`text[0]`, `text[len(text)-1]`,
  `text[1:len(text)-1]`, `strings.Replace`, `strings.Split`, `strings.Join`,
  `strings.HasPrefix`) act on quote / newline / backslash characters, which are
  one byte in UTF-8, so the character-level model coincides with Go's
  byte-level behaviour on the constructs the specification talks about.
* A Go runtime panic (out-of-range string/slice index) is modelled by `none`:
  functions that can panic return `Option`.
* `encoding/json` (`json.Unmarshal` into `map[string]interface{}` and
  `json.MarshalIndent`) is an external collaborator of this file; it is
  modelled by explicit function parameters `um` (unmarshal, `none` = parse
  error) and `mi` (marshal with two-space indent, `none` = marshal error) over
  an abstract type `J` of parsed JSON objects.
* `Except.error e` models Go's `return []byte{}, err` (an error together with
  the empty output).
-/

set_option autoImplicit false

namespace Terraformer

/-- Model of Go `strings.Replace(s, old, new, -1)` (used throughout `hcl.go`):
scan `s` left to right; at each position, if `old` is a prefix of the rest,
emit `new` and continue after the match, otherwise emit one character.  The
`Nat` argument is structural fuel; `goReplace` supplies `s.length`, which is
always sufficient because every step consumes at least one character.  All
call sites in `hcl.go` use a non-empty `old`; for `old = []` this model
returns `s` unchanged (Go would interleave `new` between characters, a case
the source never exercises). -/
def replaceAux (old new : List Char) : Nat → List Char → List Char
  | 0, s => s
  | _ + 1, [] => []
  | fuel + 1, c :: cs =>
    if old ≠ [] ∧ old.isPrefixOf (c :: cs)
    then new ++ replaceAux old new fuel (List.drop old.length (c :: cs))
    else c :: replaceAux old new fuel cs

/-- Go `strings.Replace(s, old, new, -1)`. -/
def goReplace (s old new : List Char) : List Char :=
  replaceAux old new s.length s

/-- Go `strings.Split(s, sep)` for a one-character separator (both uses in
`hcl.go` split on `"\n"`).  Always returns a non-empty list. -/
def splitOnChar (c : Char) : List Char → List (List Char)
  | [] => [[]]
  | d :: ds =>
    if d = c then [] :: splitOnChar c ds
    else
      match splitOnChar c ds with
      | [] => [[d]]
      | x :: xs => (d :: x) :: xs

/-- Go `strings.Join(ls, sep)` for a one-character separator. -/
def joinChar (c : Char) : List (List Char) → List Char
  | [] => []
  | [l] => l
  | l :: ls => l ++ c :: joinChar c ls

/-- `TfSanitize` (hcl.go lines 160-165) at the character-list level:
replace every `*.` by the empty string, then every `.` by `-`, then every
`/` by `--`. -/
def tfSanitizeL (name : List Char) : List Char :=
  goReplace (goReplace (goReplace name ['*', '.'] []) ['.'] ['-']) ['/'] ['-', '-']

/-- `TfSanitize` (hcl.go lines 160-165). -/
def TfSanitize (name : String) : String :=
  String.mk (tfSanitizeL name.data)

/-- `safeChars` (hcl.go line 31). -/
def safeChars : List Char :=
  ("abcdefghijklmnopqrstuvwxyzABCDEFGHIJKLMNOPQRSTUVWXYZ0123456789-_").data

/-- The identifier-safety alphabet exactly as the specification describes it:
the lower-case letters, the upper-case letters, the digits, `-` and `_`
(64 characters).  Used to state claims independently of the source constant
`safeChars`; the two lists are proved equal below. -/
def specAlphabet : List Char :=
  ((List.range 26).map (fun i => Char.ofNat (97 + i))) ++
    ((List.range 26).map (fun i => Char.ofNat (65 + i))) ++
      ((List.range 10).map (fun i => Char.ofNat (48 + i))) ++ ['-', '_']

/-- A token of the HCL AST (`token.Token` as used by `hcl.go`): its raw text
and its type; token type `10` is the raw heredoc type that
`visitObjectItem` assigns (hcl.go line 89). -/
structure Token where
  Text : List Char
  type : Nat
deriving DecidableEq

/-- The first-key unquoting step of `visitObjectItem` (hcl.go lines 64-79)
applied to one key text.  Go checks `text != "" && text[0] == '"' &&
text[len(text)-1] == '"'` and then takes `text[1 : len(text)-1]`; when
`len(text) = 1` (the text is the single character `"`), that slice expression
is `text[1:0]`, which panics at run time — modelled by `none`. -/
def sanitizeKeyText (text : List Char) : Option (List Char) :=
  if text ≠ [] ∧ text.head? = some '"' ∧ text.getLast? = some '"' then
    if text.length = 1 then
      none
    else
      let v := (text.drop 1).dropLast
      if v.all (fun c => safeChars.contains c) then some v else some text
  else
    some text

/-- The key loop of `visitObjectItem` (hcl.go lines 64-81): only the key at
index `0` is inspected; all later keys are left untouched. -/
def sanitizeKeys : List Token → Option (List Token)
  | [] => some []
  | k :: rest =>
    match sanitizeKeyText k.Text with
    | none => none
    | some t => some ({ k with Text := t } :: rest)

/-- The heredoc branch of `visitObjectItem` (hcl.go lines 82-110) applied to a
literal value token.  `um` and `mi` model `json.Unmarshal` into
`map[string]interface{}` and `json.MarshalIndent(tmp, "", "  ")`.  Go computes
`lines[1 : len(lines)-1]`; when the unescaped body contains no newline,
`len(lines) = 1` and that slice expression is `lines[1:0]`, a run-time panic —
modelled by `none`. -/
def heredocRewrite {J : Type} (um : List Char → Option J) (mi : J → Option (List Char))
    (tok : Token) : Option Token :=
  if ("\"<<").data.isPrefixOf tok.Text then
    let t1 := (tok.Text.drop 1).dropLast
    let t2 := goReplace t1 ("\\n").data ("\n").data
    let t3 := goReplace t2 ("\\t").data []
    let lines := splitOnChar '\n' t3
    if lines.length < 2 then
      none
    else
      let jsonTest := goReplace (joinChar '\n' ((lines.drop 1).dropLast)) ("\\\"").data ("\"").data
      match um jsonTest with
      | none => some { Text := t3, type := 10 }
      | some j =>
        match mi j with
        | none => some { Text := t3, type := 10 }
        | some pretty =>
          some { Text := joinChar '\n' ((lines.headD []) :: splitOnChar '\n' pretty ++ [lines.getLastD []]),
                 type := 10 }
  else
    some tok

mutual

/-- The HCL AST node kinds that `visit` (hcl.go lines 37-61) dispatches on.
`unknown` stands for every other `ast.Node` (the `default` branch, which only
logs "unknown type" and leaves the node untouched).  Child lists are
represented by the mutually defined `NodeList` (isomorphic to `List Node`). -/
inductive Node where
  | file (node : Node)
  | objectList (items : NodeList)
  | objectKey (tok : Token)
  | objectItem (keys : List Token) (assignLine : Nat) (val : Node)
  | literalType (tok : Token)
  | listType (elems : NodeList)
  | objectType (list : Node)
  | unknown

/-- A list of AST nodes (`[]*ast.ObjectItem` of an `ObjectList`, or the
elements of a `ListType`). -/
inductive NodeList where
  | nil
  | cons (n : Node) (ns : NodeList)

end

mutual

/-- `visit` (hcl.go lines 37-61).  In-place mutation is modelled by returning
the rewritten tree; `none` models a run-time panic aborting the traversal.
The `ObjectItem` case inlines `visitObjectItem` (hcl.go lines 63-118):
sanitize the first key, rewrite a literal heredoc value, force
`Assign.Line = 1` (line 115), then visit the value (line 117; a literal value
is not descended further, matching the no-op `LiteralType` case of `visit`).
`ListType` elements and `ObjectKey` nodes are left untouched, as in the
source. -/
def visit {J : Type} (um : List Char → Option J) (mi : J → Option (List Char)) :
    Node → Option Node
  | .file m => (visit um mi m).map .file
  | .objectList items => (visitItems um mi items).map .objectList
  | .objectKey tok => some (.objectKey tok)
  | .objectItem keys _ val =>
    match sanitizeKeys keys with
    | none => none
    | some keys2 =>
      match val with
      | .literalType tok =>
        match heredocRewrite um mi tok with
        | none => none
        | some tok2 => some (.objectItem keys2 1 (.literalType tok2))
      | v =>
        match visit um mi v with
        | none => none
        | some v2 => some (.objectItem keys2 1 v2)
  | .literalType tok => some (.literalType tok)
  | .listType elems => some (.listType elems)
  | .objectType l => (visit um mi l).map .objectType
  | .unknown => some .unknown

/-- The loop over `ObjectList.Items` (hcl.go lines 42-49); a panic in any item
aborts the whole traversal. -/
def visitItems {J : Type} (um : List Char → Option J) (mi : J → Option (List Char)) :
    NodeList → Option NodeList
  | .nil => some .nil
  | .cons n ns =>
    match visit um mi n, visitItems um mi ns with
    | some m, some ms => some (.cons m ms)
    | _, _ => none

end

/-- The first key of an object-item is not the single character `"` (the one
key text on which the unquoting slice `text[1:0]` panics). -/
def firstKeySafe (keys : List Token) : Bool :=
  match keys with
  | [] => true
  | k :: _ => !(k.Text == ['"'])

/-- A literal value beginning with `"<<` still contains a newline after
unescaping (so that `lines[1:len(lines)-1]` in the heredoc branch does not
panic); every other value is unconditionally safe. -/
def heredocSafe (val : Node) : Bool :=
  match val with
  | .literalType tok =>
    if ("\"<<").data.isPrefixOf tok.Text then
      (goReplace (goReplace ((tok.Text.drop 1).dropLast) ("\\n").data ("\n").data)
        ("\\t").data []).contains '\n'
    else true
  | _ => true

mutual

/-- Every object-item of the tree (restricted to the positions that `visit`
actually reaches) satisfies `firstKeySafe` and `heredocSafe`. -/
def noPanic : Node → Bool
  | .file m => noPanic m
  | .objectList items => noPanicItems items
  | .objectItem keys _ val =>
    firstKeySafe keys && heredocSafe val &&
      (match val with
       | .literalType _ => true
       | v => noPanic v)
  | .objectType l => noPanic l
  | _ => true

/-- `noPanic` over a node list. -/
def noPanicItems : NodeList → Bool
  | .nil => true
  | .cons n ns => noPanic n && noPanicItems ns

end

/-- hcl.go line 132: `strings.Replace(s, "\n\n", "\n", -1)`. -/
def collapseBlankLines (s : List Char) : List Char :=
  goReplace s ("\n\n").data ("\n").data

/-- The top-level resource block boundary pattern of hcl.go line 135: a
closing brace, a newline and the `resource` keyword. -/
def resourceBoundary : List Char :=
  ("\x7d\nresource").data

/-- The boundary with one blank line inserted: a closing brace, two newlines
and the `resource` keyword. -/
def resourceBoundaryGapped : List Char :=
  ("\x7d\n\nresource").data

/-- hcl.go line 135: `strings.Replace(s, "}\nresource", "}\n\nresource", -1)`. -/
def resourceBlockGap (s : List Char) : List Char :=
  goReplace s resourceBoundary resourceBoundaryGapped

/-- The whitespace-normalization step of `hclPrint` (hcl.go lines 131-135). -/
def normalizeWhitespace (s : List Char) : List Char :=
  resourceBlockGap (collapseBlankLines s)

/-- hcl.go line 139: `strings.Replace(s, "(\\\"", "(\"", -1)`. -/
def parenQuoteOpenFix (s : List Char) : List Char :=
  goReplace s ("(\\\"").data ("(\"").data

/-- hcl.go line 140: `strings.Replace(s, "\\\")", "\")", -1)`. -/
def parenQuoteCloseFix (s : List Char) : List Char :=
  goReplace s ("\\\")").data ("\")").data

/-- hcl.go line 143: `strings.Replace(s, "\\u003c", "<", -1)`. -/
def ltEscapeFix (s : List Char) : List Char :=
  goReplace s ("\\u003c").data ("<").data

/-- hcl.go line 144: `strings.Replace(s, "\\u003e", ">", -1)`. -/
def gtEscapeFix (s : List Char) : List Char :=
  goReplace s ("\\u003e").data (">").data

/-- The whole string-patch pipeline of `hclPrint` (hcl.go lines 131-144), in
source order: whitespace normalization, the two parenthesis/quote fixups, and
the two angle-bracket unescapes. -/
def hclStringFixups (s : List Char) : List Char :=
  gtEscapeFix (ltEscapeFix (parenQuoteCloseFix (parenQuoteOpenFix (normalizeWhitespace s))))

/-- hcl.go line 194 (inside `HclPrint`): the single replacement
`strings.Replace(dataJson, "\\u003c", "<", -1)` applied to the marshalled
JSON text before it is handed to the structural parser. -/
def jsonEscapeFixup (s : List Char) : List Char :=
  goReplace s ("\\u003c").data ("<").data

/-- A Go `interface{}` value as stored in `TerraformResource.Item`: either the
nil interface or some non-nil JSON-serializable value.  Only nil-ness is ever
inspected by `hcl.go` (the `r[tfName] != nil` occupancy test on line 180), so
the non-nil payloads are represented by a few simple variants. -/
inductive GoVal where
  | nil
  | strVal (s : String)
  | numVal (n : Int)
  | boolVal (b : Bool)
deriving DecidableEq

/-- The fields of `TerraformResource` that `HclPrint` reads. -/
structure TerraformResource where
  ResourceType : String
  ResourceName : String
  Item : GoVal
deriving DecidableEq

/-- Go map lookup (`m[k]`, `none` = key absent, in which case Go yields the
zero value). -/
def resMapGet {α : Type} (k : String) : List (String × α) → Option α
  | [] => none
  | (k2, v) :: rest => if k = k2 then some v else resMapGet k rest

/-- Go map store (`m[k] = v`). -/
def resMapSet {α : Type} (k : String) (v : α) : List (String × α) → List (String × α)
  | [] => [(k, v)]
  | (k2, v2) :: rest => if k = k2 then (k, v) :: rest else (k2, v2) :: resMapSet k v rest

/-- The `resourcesByType` structure of `HclPrint`:
`map[string]map[string]interface{}`. -/
abbrev ResourcesByType := List (String × List (String × GoVal))

/-- The error text of hcl.go line 181:
`fmt.Errorf("duplicate resource found: %s.%s", res.ResourceType, tfName)`. -/
def dupError (t n : String) : String :=
  ("duplicate resource found: ") ++ t ++ (".") ++ n

/-- The grouping loop of `HclPrint` (hcl.go lines 171-185): for each resource,
fetch (or create) the inner map of its `ResourceType`, sanitize its name, fail
if the slot holds a non-nil value (`r[tfName] != nil`), otherwise store
`res.Item`. -/
def groupResources : List TerraformResource → ResourcesByType → Except String ResourcesByType
  | [], acc => .ok acc
  | res :: rest, acc =>
    let r := (resMapGet res.ResourceType acc).getD []
    let tfName := TfSanitize res.ResourceName
    if (resMapGet tfName r).getD GoVal.nil ≠ GoVal.nil then
      .error (dupError res.ResourceType tfName)
    else
      groupResources rest (resMapSet res.ResourceType (resMapSet tfName res.Item r) acc)

/-- `HclPrint` (hcl.go lines 168-207).  The part after grouping — JSON
marshalling, parsing and printing — involves only external collaborators, so
it is abstracted into the continuation `rest`; on a grouping error `HclPrint`
returns `([]byte{}, err)` immediately and `rest` is never reached. -/
def HclPrintModel (resources : List TerraformResource) (provider : List (String × GoVal))
    (rest : ResourcesByType → List (String × GoVal) → Except String String) :
    Except String String :=
  match groupResources resources [] with
  | .error e => .error e
  | .ok m => rest m provider

/-- The pair that decides collisions in `HclPrint`'s grouping loop: the
resource type together with the sanitized resource name. -/
def resKey (r : TerraformResource) : String × String :=
  (r.ResourceType, TfSanitize r.ResourceName)

/-- The occupancy test of hcl.go line 180 (`r[tfName] != nil`) on the grouping
map: the slot for `p` holds a non-nil value. -/
def slotTaken (m : ResourcesByType) (p : String × String) : Prop :=
  (resMapGet p.2 ((resMapGet p.1 m).getD [])).getD GoVal.nil ≠ GoVal.nil

/-- Unmarshal stub used for concrete evaluations: every input fails to parse. -/
def umNone : List Char → Option Unit :=
  fun _ => none

/-- Marshal stub used for concrete evaluations. -/
def miNone : Unit → Option (List Char) :=
  fun _ => none

/-! ### Bridging lemmas for list prefix/suffix/infix relations -/

theorem isPrefixOf_eq {a b : List Char} : a.isPrefixOf b = true ↔ a <+: b := by
  exact List.isPrefixOf_iff_prefix

theorem infixOfPrefix {a b : List Char} (h : a <+: b) : a <:+: b := by
  exact h.isInfix

theorem infixOfSuffix {a b : List Char} (h : a <:+ b) : a <:+: b := by
  exact h.isInfix

theorem infixOfInfixDrop {a s : List Char} {n : Nat} (h : a <:+: s.drop n) : a <:+: s :=
  h.trans (infixOfSuffix (List.drop_suffix n s))

theorem infixOfInfixTail {a : List Char} {c : Char} {cs : List Char} (h : a <:+: cs) :
    a <:+: c :: cs :=
  h.trans (infixOfSuffix (List.suffix_cons c cs))

/-- An occurrence of a non-empty pattern inside `a ++ b` either uses a
character of `a` or lies entirely inside `b`. -/
theorem infix_append_cases {P : List Char} (hP : P ≠ []) :
    ∀ (a b : List Char), P <:+: a ++ b → (∃ c ∈ P, c ∈ a) ∨ P <:+: b := by
  intro a
  induction a with
  | nil => intro b h; exact Or.inr (by simpa using h)
  | cons x xs ih =>
    intro b h
    rcases List.infix_cons_iff.mp h with hpre | hinf
    · left
      rcases P with _ | ⟨p, ps⟩
      · exact absurd rfl hP
      · rcases List.cons_prefix_cons.mp hpre with ⟨heq, -⟩
        exact ⟨p, List.mem_cons_self p ps, heq ▸ List.mem_cons_self x xs⟩
    · rcases ih b hinf with ⟨c, hc1, hc2⟩ | h1
      · exact Or.inl ⟨c, hc1, List.mem_cons_of_mem x hc2⟩
      · exact Or.inr h1

/-! ### Properties of `goReplace` (Go `strings.Replace` with count `-1`) -/

/-- If some character of `old` does not occur in `s`, the replacement is the
identity. -/
theorem replaceAux_id_of_not_mem {old new : List Char} {a : Char} (ha : a ∈ old) :
    ∀ (fuel : Nat) (s : List Char), a ∉ s → replaceAux old new fuel s = s := by
  intro fuel
  induction fuel with
  | zero => intro s _; rfl
  | succ fuel ih =>
    intro s hs
    cases s with
    | nil => rfl
    | cons c cs =>
      have hguard : ¬ (old ≠ [] ∧ old.isPrefixOf (c :: cs)) := by
        rintro ⟨-, hp⟩
        exact hs ((isPrefixOf_eq.mp hp).subset ha)
      have hcs : a ∉ cs := fun h => hs (List.mem_cons_of_mem c h)
      simp only [replaceAux, if_neg hguard, ih cs hcs]

/-- Every character of the replaced string comes from `s` or from `new`. -/
theorem mem_replaceAux {old new : List Char} :
    ∀ (fuel : Nat) (s : List Char) (c : Char),
      c ∈ replaceAux old new fuel s → c ∈ s ∨ c ∈ new := by
  intro fuel
  induction fuel with
  | zero => intro s c h; exact Or.inl h
  | succ fuel ih =>
    intro s c h
    cases s with
    | nil => simp only [replaceAux] at h; cases h
    | cons d ds =>
      by_cases hg : old ≠ [] ∧ old.isPrefixOf (d :: ds)
      · simp only [replaceAux, if_pos hg] at h
        rcases List.mem_append.mp h with h1 | h1
        · exact Or.inr h1
        · rcases ih _ c h1 with h2 | h2
          · exact Or.inl (List.mem_of_mem_drop h2)
          · exact Or.inr h2
      · simp only [replaceAux, if_neg hg] at h
        rcases List.mem_cons.mp h with h1 | h1
        · exact Or.inl (h1 ▸ List.mem_cons_self d ds)
        · rcases ih ds c h1 with h2 | h2
          · exact Or.inl (List.mem_cons_of_mem d h2)
          · exact Or.inr h2

/-- Replacing a single character `d` by a `d`-free string removes every
occurrence of `d`. -/
theorem not_mem_replaceAux_single {new : List Char} {d : Char} (hd : d ∉ new) :
    ∀ (fuel : Nat) (s : List Char), s.length ≤ fuel → d ∉ replaceAux [d] new fuel s := by
  intro fuel
  induction fuel with
  | zero =>
    intro s hlen
    have hnil : s = [] := List.length_eq_zero.mp (Nat.le_zero.mp hlen)
    subst hnil
    intro h
    cases h
  | succ fuel ih =>
    intro s hlen
    cases s with
    | nil => simp [replaceAux]
    | cons c cs =>
      have hlen' : cs.length ≤ fuel := by
        simp only [List.length_cons] at hlen
        omega
      by_cases hcd : c = d
      · subst hcd
        have hg : ([c] : List Char) ≠ [] ∧ ([c] : List Char).isPrefixOf (c :: cs) := by
          exact ⟨by simp, isPrefixOf_eq.mpr (List.cons_prefix_cons.mpr ⟨rfl, List.nil_prefix⟩)⟩
        simp only [replaceAux, if_pos hg]
        intro hmem
        rcases List.mem_append.mp hmem with h1 | h1
        · exact hd h1
        · exact ih _ (by simpa using hlen') h1
      · have hg : ¬ (([d] : List Char) ≠ [] ∧ ([d] : List Char).isPrefixOf (c :: cs)) := by
          rintro ⟨-, hp⟩
          rcases List.cons_prefix_cons.mp (isPrefixOf_eq.mp hp) with ⟨h1, -⟩
          exact hcd h1.symm
        simp only [replaceAux, if_neg hg]
        intro hmem
        rcases List.mem_cons.mp hmem with h1 | h1
        · exact hcd h1.symm
        · exact ih cs hlen' h1

/-- A non-empty prefix of the replaced string that avoids the characters of
`new` is already a prefix of the input.  (`new ≠ []` is needed: with an empty
replacement the text after a deleted match could slide into prefix
position.) -/
theorem prefix_replaceAux {old new : List Char} (hnew : new ≠ []) :
    ∀ (fuel : Nat) (s k : List Char), k ≠ [] → (∀ c ∈ k, c ∉ new) →
      k <+: replaceAux old new fuel s → k <+: s := by
  intro fuel
  induction fuel with
  | zero => intro s k _ _ h; exact h
  | succ fuel ih =>
    intro s k hk hdisj h
    cases s with
    | nil =>
      simp only [replaceAux] at h
      have : k = [] := by simpa using h
      exact absurd this hk
    | cons c cs =>
      by_cases hg : old ≠ [] ∧ old.isPrefixOf (c :: cs)
      · simp only [replaceAux, if_pos hg] at h
        rcases k with _ | ⟨k0, k1⟩
        · exact absurd rfl hk
        rcases new with _ | ⟨n0, n1⟩
        · exact absurd rfl hnew
        rcases List.cons_prefix_cons.mp h with ⟨heq, -⟩
        have : k0 ∈ n0 :: n1 := by
          rw [heq]
          exact List.mem_cons_self n0 n1
        exact absurd this (hdisj k0 (List.mem_cons_self k0 k1))
      · simp only [replaceAux, if_neg hg] at h
        rcases k with _ | ⟨k0, k1⟩
        · exact absurd rfl hk
        rcases List.cons_prefix_cons.mp h with ⟨heq, hk1⟩
        subst heq
        by_cases hk1e : k1 = []
        · subst hk1e
          exact List.cons_prefix_cons.mpr ⟨rfl, List.nil_prefix⟩
        · have hrec := ih cs k1 hk1e (fun x hx => hdisj x (List.mem_cons_of_mem _ hx)) hk1
          exact List.cons_prefix_cons.mpr ⟨rfl, hrec⟩

/-- When `old` and `new` share no characters (and both are non-empty), the
replaced string contains no occurrence of `old` at all: existing occurrences
are rewritten and no new ones can be assembled. -/
theorem not_infix_replaceAux_self {old new : List Char} (hold : old ≠ []) (hnew : new ≠ [])
    (hdisj : ∀ c ∈ old, c ∉ new) :
    ∀ (fuel : Nat) (s : List Char), s.length ≤ fuel → ¬ old <:+: replaceAux old new fuel s := by
  intro fuel
  induction fuel with
  | zero =>
    intro s hlen h
    have hnil : s = [] := List.length_eq_zero.mp (Nat.le_zero.mp hlen)
    subst hnil
    simp only [replaceAux] at h
    exact hold (by simpa using h)
  | succ fuel ih =>
    intro s hlen h
    cases s with
    | nil =>
      simp only [replaceAux] at h
      exact hold (by simpa using h)
    | cons c cs =>
      have hlen' : cs.length ≤ fuel := by
        simp only [List.length_cons] at hlen
        omega
      by_cases hg : old ≠ [] ∧ old.isPrefixOf (c :: cs)
      · simp only [replaceAux, if_pos hg] at h
        rcases infix_append_cases hold _ _ h with ⟨x, hx1, hx2⟩ | hinf
        · exact hdisj x hx1 hx2
        · have hd : (List.drop old.length (c :: cs)).length ≤ fuel := by
            have h1 : 1 ≤ old.length := List.length_pos.mpr hg.1
            simp only [List.length_drop, List.length_cons]
            omega
          exact ih _ hd hinf
      · simp only [replaceAux, if_neg hg] at h
        rcases List.infix_cons_iff.mp h with hpre | hinf
        · rcases old with _ | ⟨o0, o1⟩
          · exact hold rfl
          rcases List.cons_prefix_cons.mp hpre with ⟨heq, ho1⟩
          subst heq
          by_cases ho1e : o1 = []
          · subst ho1e
            exact hg ⟨by simp, isPrefixOf_eq.mpr (List.cons_prefix_cons.mpr ⟨rfl, List.nil_prefix⟩)⟩
          · have hpc : o1 <+: cs :=
              prefix_replaceAux hnew fuel cs o1 ho1e
                (fun x hx => hdisj x (List.mem_cons_of_mem _ hx)) ho1
            exact hg ⟨by simp, isPrefixOf_eq.mpr (List.cons_prefix_cons.mpr ⟨rfl, hpc⟩)⟩
        · exact ih cs hlen' hinf

/-- Replacement by a string sharing no characters with a pattern `P` cannot
create an occurrence of `P` that was not already present. -/
theorem not_infix_replaceAux_preserve {old new P : List Char} (hP : P ≠ []) (hnew : new ≠ [])
    (hdisj : ∀ c ∈ P, c ∉ new) :
    ∀ (fuel : Nat) (s : List Char), ¬ P <:+: s → ¬ P <:+: replaceAux old new fuel s := by
  intro fuel
  induction fuel with
  | zero => intro s hs h; exact hs h
  | succ fuel ih =>
    intro s hs h
    cases s with
    | nil =>
      simp only [replaceAux] at h
      exact hs h
    | cons c cs =>
      by_cases hg : old ≠ [] ∧ old.isPrefixOf (c :: cs)
      · simp only [replaceAux, if_pos hg] at h
        rcases infix_append_cases hP _ _ h with ⟨x, hx1, hx2⟩ | hinf
        · exact hdisj x hx1 hx2
        · exact ih _ (fun hh => hs (infixOfInfixDrop hh)) hinf
      · simp only [replaceAux, if_neg hg] at h
        rcases List.infix_cons_iff.mp h with hpre | hinf
        · rcases P with _ | ⟨p0, p1⟩
          · exact hP rfl
          rcases List.cons_prefix_cons.mp hpre with ⟨heq, hp1⟩
          subst heq
          by_cases hp1e : p1 = []
          · subst hp1e
            exact hs (infixOfPrefix (List.cons_prefix_cons.mpr ⟨rfl, List.nil_prefix⟩))
          · have hpc : p1 <+: cs :=
              prefix_replaceAux hnew fuel cs p1 hp1e
                (fun x hx => hdisj x (List.mem_cons_of_mem _ hx)) hp1
            exact hs (infixOfPrefix (List.cons_prefix_cons.mpr ⟨rfl, hpc⟩))
        · exact ih cs (fun hh => hs (infixOfInfixTail hh)) hinf

theorem goReplace_id_of_not_mem {old new : List Char} {a : Char} (ha : a ∈ old)
    (s : List Char) (hs : a ∉ s) : goReplace s old new = s :=
  replaceAux_id_of_not_mem ha s.length s hs

theorem mem_goReplace {old new : List Char} (s : List Char) (c : Char)
    (h : c ∈ goReplace s old new) : c ∈ s ∨ c ∈ new :=
  mem_replaceAux s.length s c h

theorem not_mem_goReplace_single {new : List Char} {d : Char} (hd : d ∉ new)
    (s : List Char) : d ∉ goReplace s [d] new :=
  not_mem_replaceAux_single hd s.length s (Nat.le_refl _)

theorem not_infix_goReplace_self {old new : List Char} (hold : old ≠ []) (hnew : new ≠ [])
    (hdisj : ∀ c ∈ old, c ∉ new) (s : List Char) : ¬ old <:+: goReplace s old new :=
  not_infix_replaceAux_self hold hnew hdisj s.length s (Nat.le_refl _)

theorem not_infix_goReplace_preserve {old new P : List Char} (hP : P ≠ []) (hnew : new ≠ [])
    (hdisj : ∀ c ∈ P, c ∉ new) (s : List Char) (hs : ¬ P <:+: s) :
    ¬ P <:+: goReplace s old new :=
  not_infix_replaceAux_preserve hP hnew hdisj s.length s hs

/-! ### `TfSanitize` -/

theorem dot_not_mem_tfSanitizeL (s : List Char) : '.' ∉ tfSanitizeL s := by
  intro h
  rcases mem_goReplace _ _ h with h1 | h1
  · exact not_mem_goReplace_single (by decide) _ h1
  · exact absurd h1 (by decide)

theorem slash_not_mem_tfSanitizeL (s : List Char) : '/' ∉ tfSanitizeL s :=
  not_mem_goReplace_single (by decide) _

theorem tfSanitizeL_idem (s : List Char) : tfSanitizeL (tfSanitizeL s) = tfSanitizeL s := by
  have hdot := dot_not_mem_tfSanitizeL s
  have hslash := slash_not_mem_tfSanitizeL s
  conv_lhs => rw [tfSanitizeL]
  rw [goReplace_id_of_not_mem (show ('.' : Char) ∈ ['*', '.'] by decide) _ hdot,
    goReplace_id_of_not_mem (show ('.' : Char) ∈ ['.'] by decide) _ hdot,
    goReplace_id_of_not_mem (show ('/' : Char) ∈ ['/'] by decide) _ hslash]

/-- C6: `TfSanitize` — replacing every `*.` by the empty string, then every
`.` by `-`, then every `/` by `--` — is idempotent on every resource name:
applying it twice yields the same result as applying it once. -/
theorem C6_tfSanitize_idempotent (name : String) :
    TfSanitize (TfSanitize name) = TfSanitize name :=
  congrArg String.mk (tfSanitizeL_idem name.data)

/-- C6 witness: idempotence at a concrete name containing `.`, `/` and `*.`. -/
theorem C6_witness :
    TfSanitize (TfSanitize ("ec2/instance.web*.prod")) = TfSanitize ("ec2/instance.web*.prod") :=
  C6_tfSanitize_idempotent ("ec2/instance.web*.prod")

/-- C9: `TfSanitize` is not injective: the distinct names `a.b` and `a-b`
both sanitize to `a-b`, the distinct names `a/b` and `a--b` both sanitize to
`a--b`, and two resources of the same type named `a.b` and `a-b` collide in
`HclPrint`'s grouping loop, which reports the duplicate under the shared
sanitized name. -/
theorem C9_tfSanitize_not_injective :
    TfSanitize ("a.b") = ("a-b") ∧ TfSanitize ("a-b") = ("a-b") ∧
      ("a.b" : String) ≠ ("a-b") ∧
      TfSanitize ("a/b") = ("a--b") ∧ TfSanitize ("a--b") = ("a--b") ∧
      ("a/b" : String) ≠ ("a--b") ∧
      groupResources
        [⟨("aws_instance"), ("a.b"), GoVal.strVal ("x")⟩,
          ⟨("aws_instance"), ("a-b"), GoVal.strVal ("y")⟩] [] =
        .error (dupError ("aws_instance") ("a-b")) :=
  ⟨by decide, by decide, by decide, by decide, by decide, by decide, rfl⟩

/-! ### The grouping loop of `HclPrint` (claims C1 and C9) -/

theorem resMapGet_set_same {α : Type} (k : String) (v : α) :
    ∀ (m : List (String × α)), resMapGet k (resMapSet k v m) = some v := by
  intro m
  induction m with
  | nil => simp [resMapGet, resMapSet]
  | cons kv rest ih =>
    rcases kv with ⟨k2, v2⟩
    by_cases h : k = k2
    · subst h
      simp [resMapGet, resMapSet]
    · simp only [resMapSet, if_neg h, resMapGet]
      exact ih

theorem resMapGet_set_ne {α : Type} (k k2 : String) (v : α) (h : k2 ≠ k) :
    ∀ (m : List (String × α)), resMapGet k2 (resMapSet k v m) = resMapGet k2 m := by
  intro m
  induction m with
  | nil => simp [resMapGet, resMapSet, if_neg h]
  | cons kv rest ih =>
    rcases kv with ⟨k3, v3⟩
    by_cases h3 : k = k3
    · subst h3
      simp only [resMapSet, if_pos rfl, resMapGet]
      rw [if_neg h, if_neg h]
    · simp only [resMapSet, if_neg h3, resMapGet]
      by_cases h4 : k2 = k3
      · rw [if_pos h4, if_pos h4]
      · rw [if_neg h4, if_neg h4]
        exact ih

/-- Effect of one store of the grouping loop on slot occupancy, assuming the
written slot was free: the written slot becomes occupied exactly when the
stored item is non-nil, and every other slot is unchanged. -/
theorem slotTaken_set (m : ResourcesByType) (t n : String) (v : GoVal)
    (p : String × String) :
    slotTaken (resMapSet t (resMapSet n v ((resMapGet t m).getD [])) m) p ↔
      (p = (t, n) ∧ v ≠ GoVal.nil) ∨
        (p ≠ (t, n) ∧ slotTaken m p) := by
  rcases p with ⟨pt, pn⟩
  by_cases ht : pt = t
  · subst ht
    by_cases hn : pn = n
    · subst hn
      unfold slotTaken
      simp only [resMapGet_set_same]
      simp [resMapGet_set_same]
    · unfold slotTaken
      simp only
      rw [resMapGet_set_same]
      simp only [Option.getD_some]
      rw [resMapGet_set_ne n pn v hn]
      constructor
      · intro h
        exact Or.inr (⟨by simp [hn], h⟩)
      · rintro (⟨heq, -⟩ | ⟨-, h⟩)
        · exact absurd (congrArg Prod.snd heq) hn
        · exact h
  · unfold slotTaken
    simp only
    rw [resMapGet_set_ne t pt _ ht]
    constructor
    · intro h
      exact Or.inr (⟨by simp [ht], h⟩)
    · rintro (⟨heq, -⟩ | ⟨-, h⟩)
      · exact absurd (congrArg Prod.fst heq) ht
      · exact h

/-- The one-step unfolding of `groupResources` when the current slot is
occupied. -/
theorem groupResources_cons_taken (res : TerraformResource)
    (rest : List TerraformResource) (acc : ResourcesByType)
    (h : slotTaken acc (resKey res)) :
    groupResources (res :: rest) acc =
      .error (dupError res.ResourceType (TfSanitize res.ResourceName)) := by
  have h2 : (resMapGet (TfSanitize res.ResourceName)
      ((resMapGet res.ResourceType acc).getD [])).getD GoVal.nil ≠ GoVal.nil := h
  simp only [groupResources]
  rw [if_pos h2]

/-- The one-step unfolding of `groupResources` when the current slot is
free. -/
theorem groupResources_cons_free (res : TerraformResource)
    (rest : List TerraformResource) (acc : ResourcesByType)
    (h : ¬ slotTaken acc (resKey res)) :
    groupResources (res :: rest) acc =
      groupResources rest
        (resMapSet res.ResourceType
          (resMapSet (TfSanitize res.ResourceName) res.Item
            ((resMapGet res.ResourceType acc).getD [])) acc) := by
  have h2 : ¬ (resMapGet (TfSanitize res.ResourceName)
      ((resMapGet res.ResourceType acc).getD [])).getD GoVal.nil ≠ GoVal.nil := h
  simp only [groupResources]
  rw [if_neg h2]

/-- The grouping loop reports the first entry whose key pair collides: if the
entries before `r` are collision-free among themselves and none of their
slots is occupied in the accumulator, while `r`'s slot is (or becomes)
occupied, the loop stops at `r` with `r`'s error message. -/
theorem groupResources_dup :
    ∀ (l1 : List TerraformResource) (r : TerraformResource)
      (l2 : List TerraformResource) (m : ResourcesByType),
      (∀ x ∈ l1, x.Item ≠ GoVal.nil) →
      (List.map resKey l1).Nodup →
      (∀ p ∈ List.map resKey l1, ¬ slotTaken m p) →
      (resKey r ∈ List.map resKey l1 ∨ slotTaken m (resKey r)) →
      groupResources (l1 ++ r :: l2) m =
        .error (dupError r.ResourceType (TfSanitize r.ResourceName)) := by
  intro l1
  induction l1 with
  | nil =>
    intro r l2 m _ _ _ hdup
    rcases hdup with h | h
    · simp at h
    · simpa using groupResources_cons_taken r l2 m h
  | cons x l1 ih =>
    intro r l2 m hnn hnodup hfree hdup
    have hxfree : ¬ slotTaken m (resKey x) :=
      hfree (resKey x) (by simp)
    have hstep := groupResources_cons_free x (l1 ++ r :: l2) m hxfree
    rw [List.cons_append, hstep]
    set m2 := resMapSet x.ResourceType
      (resMapSet (TfSanitize x.ResourceName) x.Item
        ((resMapGet x.ResourceType m).getD [])) m with hm2
    have hset : ∀ p, slotTaken m2 p ↔
        (p = resKey x ∧ x.Item ≠ GoVal.nil) ∨ (p ≠ resKey x ∧ slotTaken m p) := by
      intro p
      exact slotTaken_set m x.ResourceType (TfSanitize x.ResourceName) x.Item p
    have hxnn : x.Item ≠ GoVal.nil := hnn x (by simp)
    have hnotin : resKey x ∉ List.map resKey l1 := (List.nodup_cons.mp hnodup).1
    refine ih r l2 m2 (fun y hy => hnn y (by simp [hy])) (List.nodup_cons.mp hnodup).2
      ?_ ?_
    · intro p hp ht
      rcases (hset p).mp ht with ⟨heq, -⟩ | ⟨-, h2⟩
      · exact hnotin (heq ▸ hp)
      · exact hfree p (by simp [hp]) h2
    · rcases hdup with h | h
      · rcases (show resKey r = resKey x ∨ ∃ a ∈ l1, resKey a = resKey r by
            simpa using h) with h2 | ⟨a, ha, hae⟩
        · exact Or.inr ((hset (resKey r)).mpr (Or.inl ⟨h2, hxnn⟩))
        · exact Or.inl (List.mem_map.mpr ⟨a, ha, hae⟩)
      · by_cases heq : resKey r = resKey x
        · exact Or.inr ((hset (resKey r)).mpr (Or.inl ⟨heq, hxnn⟩))
        · exact Or.inr ((hset (resKey r)).mpr (Or.inr ⟨heq, h⟩))

/-- C1 counterexample: two entries of the same resource type whose names
sanitize to the same slot, the first of which carries a nil `Item`.  The Go
occupancy test `r[tfName] != nil` does not fire on a stored nil, so the build
does not fail: it silently overwrites the first entry and hands the grouped
map to the rest of the pipeline, contradicting the claim that every such
input yields a duplicate-resource error with no output. -/
theorem C1_counterexample :
    resKey ⟨("aws_s3_bucket"), ("logs"), GoVal.nil⟩ =
        resKey ⟨("aws_s3_bucket"), ("logs"), GoVal.strVal ("late")⟩ ∧
      groupResources
          [⟨("aws_s3_bucket"), ("logs"), GoVal.nil⟩,
            ⟨("aws_s3_bucket"), ("logs"), GoVal.strVal ("late")⟩] [] =
        .ok [(("aws_s3_bucket"), [(("logs"), GoVal.strVal ("late"))])] ∧
      HclPrintModel
          [⟨("aws_s3_bucket"), ("logs"), GoVal.nil⟩,
            ⟨("aws_s3_bucket"), ("logs"), GoVal.strVal ("late")⟩] []
          (fun _ _ => .ok ("OUTPUT")) = .ok ("OUTPUT") :=
  ⟨rfl, rfl, rfl⟩

/-- C1 (amended): for every input list of resource entries whose `Item`
values are all non-nil, if two entries share the same
`(ResourceType, sanitized name)` pair then `HclPrint` fails with the
duplicate-resource error naming that `ResourceType` and sanitized name and
produces no output, and the first duplicate in input order is the one
reported: writing the input as `l1 ++ r :: l2` where the entries of `l1` are
pairwise collision-free and `r` collides with one of them, the error message
is built from `r`. -/
theorem C1_amended_duplicate_error (resources l1 l2 : List TerraformResource)
    (r : TerraformResource) (provider : List (String × GoVal))
    (rest : ResourcesByType → List (String × GoVal) → Except String String)
    (hsplit : resources = l1 ++ r :: l2)
    (hnn : ∀ x ∈ resources, x.Item ≠ GoVal.nil)
    (hnodup : (List.map resKey l1).Nodup)
    (hdup : resKey r ∈ List.map resKey l1) :
    HclPrintModel resources provider rest =
      .error (dupError r.ResourceType (TfSanitize r.ResourceName)) := by
  subst hsplit
  have h1 : ∀ x ∈ l1, x.Item ≠ GoVal.nil :=
    fun x hx => hnn x (List.mem_append_left _ hx)
  have hempty : ∀ p ∈ List.map resKey l1, ¬ slotTaken ([] : ResourcesByType) p := by
    intro p _
    simp [slotTaken, resMapGet]
  have hmain := groupResources_dup l1 r l2 [] h1 hnodup hempty (Or.inl hdup)
  unfold HclPrintModel
  rw [hmain]

/-- C1 witness: two non-nil entries of one type whose distinct names `api.zone`
and `api-zone` sanitize to the same slot; the build fails with the
duplicate-resource error naming the type and the sanitized name of the
second (first colliding) entry. -/
theorem C1_witness :
    HclPrintModel
        [⟨("google_dns_record"), ("api.zone"), GoVal.strVal ("a")⟩,
          ⟨("google_dns_record"), ("api-zone"), GoVal.strVal ("b")⟩] []
        (fun _ _ => .ok ("unused")) =
      .error ("duplicate resource found: google_dns_record.api-zone") := by
  have h := C1_amended_duplicate_error
    [⟨("google_dns_record"), ("api.zone"), GoVal.strVal ("a")⟩,
      ⟨("google_dns_record"), ("api-zone"), GoVal.strVal ("b")⟩]
    [⟨("google_dns_record"), ("api.zone"), GoVal.strVal ("a")⟩] []
    ⟨("google_dns_record"), ("api-zone"), GoVal.strVal ("b")⟩ []
    (fun _ _ => .ok ("unused")) rfl (by decide) (by decide) (by decide)
  have hmsg : dupError ("google_dns_record") (TfSanitize ("api-zone")) =
      ("duplicate resource found: google_dns_record.api-zone") := by decide
  rw [← hmsg]
  exact h

/-! ### The identifier-safety alphabet and key unquoting (claims C2 and C10) -/

theorem safeChars_eq_specAlphabet : safeChars = specAlphabet := by decide

/-- C2: for every object-item key list, only the first key is considered for
unquoting.  If the first key's raw token text is a double-quoted string whose
entire inner content consists of characters of the 64-character alphabet
a-z, A-Z, 0-9, `-`, `_` (the source constant `safeChars` is proved equal to
that alphabet), the surrounding quotes are stripped; if the inner content
contains any character outside the alphabet, the token text — and hence the
whole key list — is left unchanged. -/
theorem C2_first_key_unquoting (k : Token) (ks : List Token) (inner : List Char)
    (hk : k.Text = '"' :: (inner ++ ['"'])) :
    safeChars = specAlphabet ∧
      (inner.all (fun c => specAlphabet.contains c) = true →
        sanitizeKeys (k :: ks) = some ({ k with Text := inner } :: ks)) ∧
      ((∃ c ∈ inner, specAlphabet.contains c = false) →
        sanitizeKeys (k :: ks) = some (k :: ks)) := by
  have heq : safeChars = specAlphabet := safeChars_eq_specAlphabet
  have hcond : k.Text ≠ [] ∧ k.Text.head? = some '"' ∧ k.Text.getLast? = some '"' := by
    rw [hk]
    refine ⟨by simp, by simp, ?_⟩
    rw [← List.cons_append]
    exact List.getLast?_concat _
  have hlen : ¬ k.Text.length = 1 := by
    rw [hk]
    simp
  have hv : (k.Text.drop 1).dropLast = inner := by
    rw [hk]
    simp
  have hkt : sanitizeKeyText k.Text =
      (if inner.all (fun c => safeChars.contains c) then some inner else some k.Text) := by
    simp only [sanitizeKeyText, if_pos hcond, if_neg hlen, hv]
  refine ⟨heq, ?_, ?_⟩
  · intro hall
    have hall2 : inner.all (fun c => safeChars.contains c) = true := by
      rw [heq]
      exact hall
    simp only [sanitizeKeys, hkt, hall2, if_true]
  · rintro ⟨c, hc, hcf⟩
    have hfalse : inner.all (fun c => safeChars.contains c) = false := by
      rw [heq]
      apply List.all_eq_false.mpr
      exact ⟨c, hc, by simpa using hcf⟩
    simp only [sanitizeKeys, hkt, hfalse, if_false, Bool.false_eq_true]

/-- C2 witness: a key made only of alphabet characters loses its quotes; a key
containing `.` keeps them. -/
theorem C2_witness :
    sanitizeKeys [⟨("\"ami-123_x\"").data, 9⟩] = some [⟨("ami-123_x").data, 9⟩] ∧
      sanitizeKeys [⟨("\"a.b\"").data, 9⟩] = some [⟨("\"a.b\"").data, 9⟩] := by
  constructor
  · exact (C2_first_key_unquoting ⟨("\"ami-123_x\"").data, 9⟩ []
      (("ami-123_x").data) (by decide)).2.1 (by decide)
  · exact (C2_first_key_unquoting ⟨("\"a.b\"").data, 9⟩ []
      (("\"a.b\"").data.drop 1 |>.dropLast) (by decide)).2.2 ⟨'.', by decide, by decide⟩

/-- C10: a first key whose raw token text is exactly `""` passes the
quoted-string test, its (empty) inner content vacuously satisfies the
alphabet check, and the sanitizer rewrites the token text to the empty
string — an empty unquoted key. -/
theorem C10_empty_quoted_key_unquoted :
    sanitizeKeyText (("\"\"").data) = some [] ∧
      sanitizeKeys [⟨("\"\"").data, 9⟩] = some [⟨[], 9⟩] :=
  ⟨rfl, rfl⟩

/-! ### Split/join facts used by the heredoc claims -/

theorem splitOnChar_ne_nil (c : Char) : ∀ (s : List Char), splitOnChar c s ≠ []
  | [] => by simp [splitOnChar]
  | d :: ds => by
    by_cases h : d = c
    · simp [splitOnChar, h]
    · simp only [splitOnChar, if_neg h]
      cases hs : splitOnChar c ds with
      | nil => simp
      | cons x xs => simp

theorem joinChar_cons_ne (c : Char) (l : List Char) (ls : List (List Char)) (h : ls ≠ []) :
    joinChar c (l :: ls) = l ++ c :: joinChar c ls := by
  cases ls with
  | nil => exact absurd rfl h
  | cons m ms => rfl

/-- Joining on the separator undoes splitting on it. -/
theorem joinChar_splitOnChar (c : Char) : ∀ (s : List Char), joinChar c (splitOnChar c s) = s
  | [] => rfl
  | d :: ds => by
    have ih := joinChar_splitOnChar c ds
    by_cases h : d = c
    · subst h
      simp only [splitOnChar, eq_self_iff_true, if_true]
      rw [joinChar_cons_ne d [] (splitOnChar d ds) (splitOnChar_ne_nil d ds)]
      simpa using ih
    · simp only [splitOnChar, if_neg h]
      cases hs : splitOnChar c ds with
      | nil => exact absurd hs (splitOnChar_ne_nil c ds)
      | cons x xs =>
        rw [hs] at ih
        cases xs with
        | nil =>
          simp only [joinChar]
          simp only [joinChar] at ih
          rw [ih]
        | cons y ys =>
          rw [joinChar_cons_ne c (d :: x) (y :: ys) (by simp)]
          rw [joinChar_cons_ne c x (y :: ys) (by simp)] at ih
          rw [List.cons_append, ih]

/-- The split has at least two pieces exactly when the separator occurs. -/
theorem two_le_splitOnChar_length (c : Char) :
    ∀ (s : List Char), 2 ≤ (splitOnChar c s).length ↔ c ∈ s
  | [] => by simp [splitOnChar]
  | d :: ds => by
    have ih := two_le_splitOnChar_length c ds
    by_cases h : d = c
    · subst h
      simp only [splitOnChar, eq_self_iff_true, if_true, List.length_cons]
      constructor
      · intro _
        exact List.mem_cons_self d ds
      · intro _
        have h1 : 1 ≤ (splitOnChar d ds).length :=
          List.length_pos.mpr (splitOnChar_ne_nil d ds)
        omega
    · simp only [splitOnChar, if_neg h]
      cases hs : splitOnChar c ds with
      | nil => exact absurd hs (splitOnChar_ne_nil c ds)
      | cons x xs =>
        rw [hs] at ih
        simp only [List.length_cons] at ih ⊢
        constructor
        · intro hlen
          exact List.mem_cons_of_mem d (ih.mp hlen)
        · intro hmem
          rcases List.mem_cons.mp hmem with h1 | h1
          · exact absurd h1.symm h
          · exact ih.mpr h1

theorem joinChar_append_singleton (c : Char) (b : List Char) :
    ∀ (ls : List (List Char)), ls ≠ [] →
      joinChar c (ls ++ [b]) = joinChar c ls ++ c :: b
  | [], h => absurd rfl h
  | [l], _ => rfl
  | l :: m :: ms, _ => by
    have ih := joinChar_append_singleton c b (m :: ms) (by simp)
    rw [List.cons_append, joinChar_cons_ne c l ((m :: ms) ++ [b]) (by simp),
      joinChar_cons_ne c l (m :: ms) (by simp), ih,
      List.append_assoc, List.cons_append]

/-! ### Heredoc recovery (claim C3) -/

/-- C3 counterexample: a literal token whose text starts with `"<<` but whose
content has no newline.  The claim asserts the rewrite always completes with
no error, but after stripping and unescaping, `strings.Split` yields a single
line, and `lines[1:len(lines)-1]` is the panicking slice `lines[1:0]`:
the sanitizer aborts instead of rewriting. -/
theorem C3_counterexample :
    ("\"<<").data.isPrefixOf (("\"<<EOF\"").data) = true ∧
      heredocRewrite umNone miNone ⟨("\"<<EOF\"").data, 9⟩ = none :=
  ⟨rfl, rfl⟩

/-- C3 (amended): for every object-item value that is a literal token whose
text starts with `"<<` and whose body still contains a newline after
unescaping, the rewrite proceeds exactly as claimed: the first and last
characters are stripped, every `\n` escape becomes a newline, every `\t`
escape is deleted, the token is reclassified with the raw heredoc type 10;
then, if the lines strictly between the first and last line, after undoing
escaped quotes, unmarshal as a JSON object that re-marshals successfully, the
new text is the first line, the re-serialized object and the last line joined
by newlines; otherwise the text of the earlier steps is kept and no error is
raised.  (Bodies with no newline instead hit the `lines[1:0]` panic — see the
counterexample.) -/
theorem C3_amended_heredoc_rewrite {J : Type} (um : List Char → Option J)
    (mi : J → Option (List Char)) (tok : Token) (body jsonTest : List Char)
    (hpre : ("\"<<").data.isPrefixOf tok.Text = true)
    (hbody : body =
      goReplace (goReplace ((tok.Text.drop 1).dropLast) (("\\n").data) (("\n").data))
        (("\\t").data) [])
    (hjt : jsonTest =
      goReplace (joinChar '\n' (((splitOnChar '\n' body).drop 1).dropLast))
        (("\\\"").data) (("\"").data))
    (hnl : '\n' ∈ body) :
    ∃ t, heredocRewrite um mi tok = some { Text := t, type := 10 } ∧
      (um jsonTest = none → t = body) ∧
      (∀ j, um jsonTest = some j → mi j = none → t = body) ∧
      (∀ j pretty, um jsonTest = some j → mi j = some pretty →
        t = (splitOnChar '\n' body).headD [] ++
          '\n' :: (pretty ++ '\n' :: (splitOnChar '\n' body).getLastD [])) := by
  have hb2 := hbody.symm
  have hj2 := hjt.symm
  have hsplit2 : ¬ (splitOnChar '\n' body).length < 2 := by
    have := (two_le_splitOnChar_length '\n' body).mpr hnl
    omega
  rcases hum : um jsonTest with - | j
  · refine ⟨body, ?_, fun _ => rfl, fun j hj => Option.noConfusion hj,
      fun j p hj => Option.noConfusion hj⟩
    simp only [heredocRewrite, if_pos hpre]
    rw [hb2, hj2, if_neg hsplit2, hum]
  · rcases hmi : mi j with - | pretty
    · refine ⟨body, ?_, fun h => Option.noConfusion h, fun j2 hj2b hmi2 => rfl, ?_⟩
      · simp only [heredocRewrite, if_pos hpre]
        rw [hb2, hj2, if_neg hsplit2, hum]
        simp only [hmi]
      · intro j2 p2 hj2b hmi2
        injection hj2b with hjj
        subst hjj
        rw [hmi] at hmi2
        cases hmi2
    · have hne : splitOnChar '\n' pretty ≠ [] := splitOnChar_ne_nil '\n' pretty
      have hjoin : joinChar '\n'
          ((splitOnChar '\n' body).headD [] :: splitOnChar '\n' pretty ++
            [(splitOnChar '\n' body).getLastD []]) =
          (splitOnChar '\n' body).headD [] ++
            '\n' :: (pretty ++ '\n' :: (splitOnChar '\n' body).getLastD []) := by
        rw [List.cons_append]
        rw [joinChar_cons_ne '\n' ((splitOnChar '\n' body).headD [])
            (splitOnChar '\n' pretty ++ [(splitOnChar '\n' body).getLastD []]) (by simp),
          joinChar_append_singleton '\n' _ _ hne, joinChar_splitOnChar]
      refine ⟨(splitOnChar '\n' body).headD [] ++
          '\n' :: (pretty ++ '\n' :: (splitOnChar '\n' body).getLastD []), ?_,
          fun h => Option.noConfusion h, ?_, ?_⟩
      · simp only [heredocRewrite, if_pos hpre]
        rw [hb2, hj2, if_neg hsplit2, hum]
        simp only [hmi]
        rw [hjoin]
      · intro j2 hj2b hmi2
        injection hj2b with hjj
        subst hjj
        rw [hmi] at hmi2
        cases hmi2
      · intro j2 p2 hj2b hmi2
        injection hj2b with hjj
        subst hjj
        rw [hmi] at hmi2
        injection hmi2 with hpp
        subst hpp
        rfl

/-- C3 witness: a concrete heredoc-like JSON string with newline escapes, with
an unmarshal that rejects the body: the token keeps the stripped and
unescaped text and is reclassified to the heredoc token type. -/
theorem C3_witness :
    heredocRewrite umNone miNone ⟨("\"<<EOF\\nrow\\nEOF\"").data, 9⟩ =
      some { Text := ("<<EOF\nrow\nEOF").data, type := 10 } := by
  obtain ⟨t, h1, h2, -, -⟩ := C3_amended_heredoc_rewrite umNone miNone
    ⟨("\"<<EOF\\nrow\\nEOF\"").data, 9⟩ (("<<EOF\nrow\nEOF").data) (("row").data)
    rfl (by decide) (by decide) (by decide)
  rw [h1, h2 rfl]

/-! ### Angle-bracket escape fixups (claims C4 and C8) -/

/-- C4 counterexample: `HclPrint` only replaces `<` in the marshalled
JSON before parsing (hcl.go line 194); a `>` escape survives the step
unchanged, so the parsed tree's literal text can still contain `>`,
contradicting the claim that both escapes are replaced at this point. -/
theorem C4_counterexample :
    jsonEscapeFixup (("a = \\u003e b").data) = ("a = \\u003e b").data ∧
      ("\\u003e").data <:+: jsonEscapeFixup (("a = \\u003e b").data) :=
  ⟨rfl, by decide⟩

/-- C4 (amended): the pre-parse fixup of `HclPrint` removes every `<`
escape — the text handed to the structural parser contains no occurrence of
`<` — but it does not touch `>`, whose replacement happens only in
the printer's post-render fixups. -/
theorem C4_amended_no_lt_escape (s : List Char) :
    ¬ ("\\u003c").data <:+: jsonEscapeFixup s :=
  not_infix_goReplace_self (by decide) (by decide) (by decide) s

/-- C4 witness: the amended theorem applied to a concrete marshalled text. -/
theorem C4_witness :
    ¬ ("\\u003c").data <:+: jsonEscapeFixup (("x \\u003c y \\u003c z").data) :=
  C4_amended_no_lt_escape (("x \\u003c y \\u003c z").data)

/-- C8: after the printer's string-level escaping fixups (hcl.go lines
137-144), the rendered text contains no occurrence of `<` and no
occurrence of `>`: existing occurrences are replaced by `<` and `>`, and
the replacements cannot assemble new ones. -/
theorem C8_no_angle_escapes_after_fixups (s : List Char) :
    ¬ ("\\u003c").data <:+: hclStringFixups s ∧
      ¬ ("\\u003e").data <:+: hclStringFixups s := by
  constructor
  · unfold hclStringFixups gtEscapeFix
    apply not_infix_goReplace_preserve (by decide) (by decide) (by decide)
    unfold ltEscapeFix
    exact not_infix_goReplace_self (by decide) (by decide) (by decide) _
  · unfold hclStringFixups gtEscapeFix
    exact not_infix_goReplace_self (by decide) (by decide) (by decide) _

/-- C8 witness: the theorem applied to a concrete rendered text containing
both escapes. -/
theorem C8_witness :
    ¬ ("\\u003c").data <:+: hclStringFixups (("cond = \"a \\u003c b \\u003e c\"").data) ∧
      ¬ ("\\u003e").data <:+: hclStringFixups (("cond = \"a \\u003c b \\u003e c\"").data) :=
  C8_no_angle_escapes_after_fixups (("cond = \"a \\u003c b \\u003e c\"").data)

/-! ### Totality of the sanitizer traversal (claim C7) -/

/-- The key-unquoting step panics only on the one-character text `"`. -/
theorem sanitizeKeyText_isSome {t : List Char} (h : t ≠ ['"']) :
    (sanitizeKeyText t).isSome = true := by
  by_cases h1 : t ≠ [] ∧ t.head? = some '"' ∧ t.getLast? = some '"'
  · by_cases h2 : t.length = 1
    · exfalso
      rcases t with _ | ⟨c, cs⟩
      · exact h1.1 rfl
      · cases cs with
        | nil =>
          have hc : c = '"' := by
            have := h1.2.1
            simpa using this
          exact h (by rw [hc])
        | cons d ds => simp [List.length_cons] at h2
    · simp only [sanitizeKeyText, if_pos h1, if_neg h2]
      split
      · rfl
      · rfl
  · simp only [sanitizeKeyText, if_neg h1]
    rfl

/-- The key loop completes whenever the first key is not the panicking
text. -/
theorem sanitizeKeys_isSome {keys : List Token} (h : firstKeySafe keys = true) :
    (sanitizeKeys keys).isSome = true := by
  cases keys with
  | nil => rfl
  | cons k rest =>
    have hk : k.Text ≠ ['"'] := by
      simpa [firstKeySafe] using h
    have hs := sanitizeKeyText_isSome hk
    simp only [sanitizeKeys]
    cases hkt : sanitizeKeyText k.Text with
    | none => simp [hkt] at hs
    | some t => rfl

/-- The heredoc branch completes whenever the unescaped body keeps a
newline. -/
theorem heredocRewrite_isSome {J : Type} (um : List Char → Option J)
    (mi : J → Option (List Char)) (tok : Token)
    (h : heredocSafe (.literalType tok) = true) :
    (heredocRewrite um mi tok).isSome = true := by
  by_cases hpre : ("\"<<").data.isPrefixOf tok.Text = true
  · have hcontains : (goReplace (goReplace ((tok.Text.drop 1).dropLast)
        (("\\n").data) (("\n").data)) (("\\t").data) []).contains '\n' = true := by
      simpa [heredocSafe, hpre] using h
    have hnl : '\n' ∈ goReplace (goReplace ((tok.Text.drop 1).dropLast)
        (("\\n").data) (("\n").data)) (("\\t").data) [] := by
      simpa using hcontains
    have hlen : ¬ (splitOnChar '\n' (goReplace (goReplace ((tok.Text.drop 1).dropLast)
        (("\\n").data) (("\n").data)) (("\\t").data) [])).length < 2 := by
      have := (two_le_splitOnChar_length '\n' _).mpr hnl
      omega
    simp only [heredocRewrite, if_pos hpre]
    rw [if_neg hlen]
    split
    · rfl
    · split
      · rfl
      · rfl
  · simp only [heredocRewrite, if_neg hpre]
    rfl

/-- The object-item case of `visit` completes whenever its key and value are
panic-free and visiting the value completes. -/
theorem visitItem_isSome {J : Type} (um : List Char → Option J)
    (mi : J → Option (List Char)) (keys : List Token) (al : Nat) (val : Node)
    (h1 : firstKeySafe keys = true) (h2 : heredocSafe val = true)
    (hrec : (visit um mi val).isSome = true) :
    (visit um mi (.objectItem keys al val)).isSome = true := by
  have hk := sanitizeKeys_isSome h1
  simp only [visit]
  split
  · rename_i heq
    simp [heq] at hk
  · split
    · rename_i tok
      have hh := heredocRewrite_isSome um mi tok h2
      split
      · rename_i heq3
        simp [heq3] at hh
      · rfl
    · split
      · rename_i heq3
        simp [heq3] at hrec
      · rfl

/-- `noPanic` at an object-item, with the value condition written uniformly
(visiting a literal value is a no-op, so `noPanic` of a literal is `true`). -/
theorem noPanic_objectItem (keys : List Token) (al : Nat) (val : Node) :
    noPanic (.objectItem keys al val) =
      (firstKeySafe keys && heredocSafe val && noPanic val) := by
  cases val <;> rfl

mutual

theorem visit_isSome_of_noPanic {J : Type} (um : List Char → Option J)
    (mi : J → Option (List Char)) :
    ∀ (n : Node), noPanic n = true → (visit um mi n).isSome = true
  | .file m, h => by
    have ih := visit_isSome_of_noPanic um mi m (by simpa [noPanic] using h)
    simp only [visit]
    cases hm : visit um mi m with
    | none => simp [hm] at ih
    | some x => rfl
  | .objectList items, h => by
    have ih := visitItems_isSome_of_noPanic um mi items (by simpa [noPanic] using h)
    simp only [visit]
    cases hm : visitItems um mi items with
    | none => simp [hm] at ih
    | some x => rfl
  | .objectKey tok, _ => rfl
  | .objectItem keys al val, h => by
    rw [noPanic_objectItem] at h
    simp only [Bool.and_eq_true] at h
    exact visitItem_isSome um mi keys al val h.1.1 h.1.2
      (visit_isSome_of_noPanic um mi val h.2)
  | .literalType tok, _ => rfl
  | .listType elems, _ => rfl
  | .objectType l, h => by
    have ih := visit_isSome_of_noPanic um mi l (by simpa [noPanic] using h)
    simp only [visit]
    cases hm : visit um mi l with
    | none => simp [hm] at ih
    | some x => rfl
  | .unknown, _ => rfl

theorem visitItems_isSome_of_noPanic {J : Type} (um : List Char → Option J)
    (mi : J → Option (List Char)) :
    ∀ (l : NodeList), noPanicItems l = true → (visitItems um mi l).isSome = true
  | .nil, _ => rfl
  | .cons n ns, h => by
    have hp : noPanic n = true ∧ noPanicItems ns = true := by
      simpa [noPanicItems, Bool.and_eq_true] using h
    have ihn := visit_isSome_of_noPanic um mi n hp.1
    have ihs := visitItems_isSome_of_noPanic um mi ns hp.2
    simp only [visitItems]
    cases hn : visit um mi n with
    | none => simp [hn] at ihn
    | some m =>
      cases hs : visitItems um mi ns with
      | none => simp [hs] at ihs
      | some ms => rfl

end

/-- C7 counterexample: an object-item whose first key token text is the single
character `"`.  Go's unquoting step then evaluates `text[1 : len(text)-1]`
with bounds `1:0`, a run-time panic, so the sanitizer's traversal aborts
rather than completing normally — the claim that sanitization completes on
arbitrary key token texts fails. -/
theorem C7_counterexample :
    (visit umNone miNone
        (.objectItem [⟨['"'], 9⟩] 0 (.literalType ⟨("\"x\"").data, 9⟩))).isSome = false :=
  rfl

/-- C7 (amended): the sanitizer's traversal completes normally on every tree
in which every object-item's first key token text is not the single character
`"` and every literal value starting with `"<<` keeps a newline after
unescaping (the two run-time panics of `visitObjectItem`); unrecognized node
kinds are left untouched and never abort the traversal, and malformed heredoc
JSON falls back to the unmodified text, for every choice of the external
unmarshal and marshal functions. -/
theorem C7_amended_traversal_total {J : Type} (um : List Char → Option J)
    (mi : J → Option (List Char)) (n : Node) (h : noPanic n = true) :
    (visit um mi n).isSome = true :=
  visit_isSome_of_noPanic um mi n h

/-- C7 witness: a file containing an object-item with a quoted key and a
heredoc value with newlines, plus an unrecognized node, traverses
successfully. -/
theorem C7_witness :
    noPanic (Node.file (.objectList (.cons
        (.objectItem [⟨("\"name\"").data, 9⟩] 0
          (.literalType ⟨("\"<<EOF\\na\\nEOF\"").data, 9⟩))
        (.cons .unknown .nil)))) = true ∧
      (visit umNone miNone (Node.file (.objectList (.cons
        (.objectItem [⟨("\"name\"").data, 9⟩] 0
          (.literalType ⟨("\"<<EOF\\na\\nEOF\"").data, 9⟩))
        (.cons .unknown .nil))))).isSome = true :=
  ⟨by decide, C7_amended_traversal_total umNone miNone _ (by decide)⟩

/-! ### Whitespace normalization (claim C5) -/

theorem head?_append_left (l t : List Char) (h : l ≠ []) : (l ++ t).head? = l.head? := by
  cases l with
  | nil => exact absurd rfl h
  | cons c cs => rfl

theorem prefix_head_eq {p t : List Char} (hp : p ≠ []) (h : p <+: t) : p.head? = t.head? := by
  rcases p with _ | ⟨c, cs⟩
  · exact absurd rfl hp
  · rcases t with _ | ⟨d, ds⟩
    · simp at h
    · rcases List.cons_prefix_cons.mp h with ⟨heq, -⟩
      rw [heq]
      rfl

theorem getLast?_cons_of_ne {c : Char} {l : List Char} (h : l ≠ []) :
    (c :: l).getLast? = l.getLast? := by
  rw [show c :: l = [c] ++ l from rfl]
  exact List.getLast?_append_of_ne_nil [c] h

/-- The output of the blank-line collapse never starts with the collapsed
character unless the input did. -/
theorem replaceAux_head_ne (a : Char) :
    ∀ (fuel : Nat) (s : List Char), s.head? ≠ some a →
      ¬ [a] <+: replaceAux [a, a] [a] fuel s := by
  intro fuel s hs h
  cases fuel with
  | zero =>
    cases s with
    | nil => simp [replaceAux] at h
    | cons c cs =>
      rcases List.cons_prefix_cons.mp h with ⟨heq, -⟩
      apply hs
      simp [heq]
  | succ fuel =>
    cases s with
    | nil => simp [replaceAux] at h
    | cons c cs =>
      have hcne : c ≠ a := fun hh => hs (by simp [hh])
      have hg : ¬ (([a, a] : List Char) ≠ [] ∧ ([a, a] : List Char).isPrefixOf (c :: cs)) := by
        rintro ⟨-, hpre⟩
        rcases List.cons_prefix_cons.mp (isPrefixOf_eq.mp hpre) with ⟨heq, -⟩
        exact hcne heq.symm
      simp only [replaceAux, if_neg hg] at h
      rcases List.cons_prefix_cons.mp h with ⟨heq, -⟩
      exact hcne heq.symm

/-- Collapsing double occurrences of `a` leaves no double occurrence, provided
the input contains no triple occurrence. -/
theorem collapse_no_double (a : Char) :
    ∀ (fuel : Nat) (s : List Char), s.length ≤ fuel → ¬ [a, a, a] <:+: s →
      ¬ [a, a] <:+: replaceAux [a, a] [a] fuel s := by
  intro fuel
  induction fuel with
  | zero =>
    intro s hlen _ h
    have hnil : s = [] := List.length_eq_zero.mp (Nat.le_zero.mp hlen)
    subst hnil
    simp [replaceAux] at h
  | succ fuel ih =>
    intro s hlen htriple h
    cases s with
    | nil => simp [replaceAux] at h
    | cons c cs =>
      by_cases hg : ([a, a] : List Char) ≠ [] ∧ ([a, a] : List Char).isPrefixOf (c :: cs)
      · have hp : [a, a] <+: c :: cs := isPrefixOf_eq.mp hg.2
        rcases List.cons_prefix_cons.mp hp with ⟨heq1, hp2⟩
        rcases cs with _ | ⟨d, cs2⟩
        · simp at hp2
        rcases List.cons_prefix_cons.mp hp2 with ⟨heq2, -⟩
        subst heq1
        subst heq2
        simp only [replaceAux, if_pos hg] at h
        have hcs2head : cs2.head? ≠ some a := by
          intro hh
          apply htriple
          rcases cs2 with _ | ⟨e, es⟩
          · simp at hh
          · have he : e = a := by simpa using hh
            subst he
            exact infixOfPrefix (List.cons_prefix_cons.mpr ⟨rfl,
              List.cons_prefix_cons.mpr ⟨rfl,
                List.cons_prefix_cons.mpr ⟨rfl, List.nil_prefix⟩⟩⟩)
        have h2 : [a, a] <:+: a :: replaceAux [a, a] [a] fuel cs2 := by
          simpa using h
        rcases List.infix_cons_iff.mp h2 with hpre | hinf
        · rcases List.cons_prefix_cons.mp hpre with ⟨-, hp3⟩
          exact replaceAux_head_ne a fuel cs2 hcs2head hp3
        · have hlen2 : cs2.length ≤ fuel := by
            simp only [List.length_cons] at hlen
            omega
          have htr : ¬ [a, a, a] <:+: cs2 :=
            fun hh => htriple (infixOfInfixTail (infixOfInfixTail hh))
          exact ih cs2 hlen2 htr hinf
      · simp only [replaceAux, if_neg hg] at h
        have hlen' : cs.length ≤ fuel := by
          simp only [List.length_cons] at hlen
          omega
        rcases List.infix_cons_iff.mp h with hpre | hinf
        · rcases List.cons_prefix_cons.mp hpre with ⟨heq, hp2⟩
          subst heq
          have hcshead : cs.head? ≠ some a := by
            intro hh
            apply hg
            refine ⟨by simp, ?_⟩
            rcases cs with _ | ⟨d, ds⟩
            · simp at hh
            · have hd : d = a := by simpa using hh
              subst hd
              exact isPrefixOf_eq.mpr (List.cons_prefix_cons.mpr ⟨rfl,
                List.cons_prefix_cons.mpr ⟨rfl, List.nil_prefix⟩⟩)
          exact replaceAux_head_ne a fuel cs hcshead hp2
        · have htr : ¬ [a, a, a] <:+: cs := fun hh => htriple (infixOfInfixTail hh)
          exact ih cs hlen' htr hinf

/-- Head provenance for `replaceAux`: the first output character is the first
character of `new` or the first character of the input. -/
theorem replaceAux_head_mem {old new : List Char} (hnew : new ≠ []) :
    ∀ (fuel : Nat) (s : List Char) (t : Char),
      (replaceAux old new fuel s).head? = some t →
      new.head? = some t ∨ s.head? = some t := by
  intro fuel
  induction fuel with
  | zero => intro s t h; exact Or.inr h
  | succ fuel ih =>
    intro s t h
    cases s with
    | nil => simp [replaceAux] at h
    | cons c cs =>
      by_cases hg : old ≠ [] ∧ old.isPrefixOf (c :: cs)
      · simp only [replaceAux, if_pos hg] at h
        rw [head?_append_left _ _ hnew] at h
        exact Or.inl h
      · simp only [replaceAux, if_neg hg] at h
        exact Or.inr h

/-- Prefix reflection for the boundary-gapping pass: a non-empty suffix of the
pattern `}`-newline-`resource` that prefixes the output already prefixes the
input. -/
theorem resourceGap_prefix_reflect :
    ∀ (fuel : Nat) (s p : List Char), p ≠ [] → p <:+ resourceBoundary →
      p <+: replaceAux resourceBoundary resourceBoundaryGapped fuel s →
      p <+: s := by
  intro fuel
  induction fuel with
  | zero => intro s p _ _ h; exact h
  | succ fuel ih =>
    intro s p hp hsuf h
    cases s with
    | nil =>
      simp only [replaceAux] at h
      have : p = [] := by simpa using h
      exact absurd this hp
    | cons c cs =>
      by_cases hg : resourceBoundary ≠ [] ∧ resourceBoundary.isPrefixOf (c :: cs)
      · simp only [replaceAux, if_pos hg] at h
        have hhead : p.head? = some '\x7d' := by
          rw [prefix_head_eq hp h, head?_append_left _ _ (by decide)]
          rfl
        have hpold : p = resourceBoundary := by
          obtain ⟨k, hk, hdrop⟩ : ∃ k, k ≤ 10 ∧ p = List.drop (10 - k) resourceBoundary := by
            refine ⟨p.length, by simpa using hsuf.length_le, ?_⟩
            simpa using List.suffix_iff_eq_drop.mp hsuf
          subst hdrop
          interval_cases k
          · exact absurd rfl hp
          · exact absurd (show (some 'e' : Option Char) = some '\x7d' from hhead) (by decide)
          · exact absurd (show (some 'c' : Option Char) = some '\x7d' from hhead) (by decide)
          · exact absurd (show (some 'r' : Option Char) = some '\x7d' from hhead) (by decide)
          · exact absurd (show (some 'u' : Option Char) = some '\x7d' from hhead) (by decide)
          · exact absurd (show (some 'o' : Option Char) = some '\x7d' from hhead) (by decide)
          · exact absurd (show (some 's' : Option Char) = some '\x7d' from hhead) (by decide)
          · exact absurd (show (some 'e' : Option Char) = some '\x7d' from hhead) (by decide)
          · exact absurd (show (some 'r' : Option Char) = some '\x7d' from hhead) (by decide)
          · exact absurd (show (some '\n' : Option Char) = some '\x7d' from hhead) (by decide)
          · rfl
        subst hpold
        exact isPrefixOf_eq.mp hg.2
      · simp only [replaceAux, if_neg hg] at h
        rcases p with _ | ⟨p0, p1⟩
        · exact absurd rfl hp
        rcases List.cons_prefix_cons.mp h with ⟨heq, hp1⟩
        subst heq
        by_cases hp1e : p1 = []
        · subst hp1e
          exact List.cons_prefix_cons.mpr ⟨rfl, List.nil_prefix⟩
        · have hsuf1 : p1 <:+ resourceBoundary := by
            obtain ⟨t, ht⟩ := hsuf
            exact ⟨t ++ [p0], by rw [List.append_assoc]; exact ht⟩
          exact List.cons_prefix_cons.mpr ⟨rfl, ih cs p1 hp1e hsuf1 hp1⟩

/-- When the boundary pattern prefixes the input, the output starts with the
gapped boundary. -/
theorem resourceGap_starts_new (fuel : Nat) (s : List Char) (hlen : s.length ≤ fuel)
    (h : resourceBoundary <+: s) :
    ∃ R, replaceAux resourceBoundary resourceBoundaryGapped fuel s =
      resourceBoundaryGapped ++ R := by
  cases s with
  | nil =>
    exfalso
    have : resourceBoundary = [] := by simpa using h
    exact absurd this (by decide)
  | cons c cs =>
    cases fuel with
    | zero => simp at hlen
    | succ fuel =>
      have hg : resourceBoundary ≠ [] ∧ resourceBoundary.isPrefixOf (c :: cs) :=
        ⟨by decide, isPrefixOf_eq.mpr h⟩
      exact ⟨replaceAux resourceBoundary resourceBoundaryGapped fuel
          (List.drop resourceBoundary.length (c :: cs)),
        by simp only [replaceAux, if_pos hg]⟩

/-- After the gapping pass, no bare (un-gapped) boundary `}`-newline-`resource`
remains: every occurrence was replaced and none can be newly assembled. -/
theorem resourceGap_no_bare :
    ∀ (fuel : Nat) (s : List Char), s.length ≤ fuel →
      ¬ resourceBoundary <:+: replaceAux resourceBoundary resourceBoundaryGapped fuel s := by
  intro fuel
  induction fuel with
  | zero =>
    intro s hlen h
    have hnil : s = [] := List.length_eq_zero.mp (Nat.le_zero.mp hlen)
    subst hnil
    simp only [replaceAux] at h
    exact absurd (by simpa using h) (show resourceBoundary ≠ [] by decide)
  | succ fuel ih =>
    intro s hlen h
    cases s with
    | nil =>
      simp only [replaceAux] at h
      exact absurd (by simpa using h) (show resourceBoundary ≠ [] by decide)
    | cons c cs =>
      have hlen' : cs.length ≤ fuel := by
        simp only [List.length_cons] at hlen
        omega
      by_cases hg : resourceBoundary ≠ [] ∧ resourceBoundary.isPrefixOf (c :: cs)
      · simp only [replaceAux, if_pos hg] at h
        have hdlen : (List.drop 10 (c :: cs)).length ≤ fuel := by
          simp only [List.length_drop, List.length_cons]
          omega
        obtain ⟨u, v, huv⟩ := h
        rw [List.append_assoc] at huv
        rcases List.append_eq_append_iff.mp huv with ⟨a2, ha1, ha2⟩ | ⟨a2, ha1, ha2⟩
        · -- the occurrence starts inside the emitted gapped boundary
          have hsuf : a2 <:+ resourceBoundaryGapped := ⟨u, ha1.symm⟩
          obtain ⟨k, hk, hdrop⟩ : ∃ k, k ≤ 11 ∧
              a2 = List.drop (11 - k) resourceBoundaryGapped := by
            refine ⟨a2.length, by simpa using hsuf.length_le, ?_⟩
            simpa using List.suffix_iff_eq_drop.mp hsuf
          subst hdrop
          interval_cases k
          · -- the occurrence would be a boundary at the head of the
            -- recursive output, but that output starts with a gapped boundary
            have hpre : resourceBoundary <+:
                replaceAux resourceBoundary resourceBoundaryGapped fuel
                  (List.drop resourceBoundary.length (c :: cs)) := ⟨v, by exact ha2⟩
            have hdlen2 : (List.drop resourceBoundary.length (c :: cs)).length ≤ fuel := by
              have h10 : resourceBoundary.length = 10 := by decide
              simp only [List.length_drop, List.length_cons, h10]
              omega
            have hin := resourceGap_prefix_reflect fuel _ resourceBoundary (by decide)
              (List.suffix_refl _) hpre
            obtain ⟨R2, hR2⟩ := resourceGap_starts_new fuel _ hdlen2 hin
            rw [hR2] at hpre
            have h10 := List.prefix_iff_eq_take.mp hpre
            rw [List.take_append_of_le_length (by decide)] at h10
            exact absurd h10 (by decide)
          · exact absurd (show (some '\x7d' : Option Char) = some 'e' from
              congrArg List.head? ha2) (by decide)
          · exact absurd (show (some '\x7d' : Option Char) = some 'c' from
              congrArg List.head? ha2) (by decide)
          · exact absurd (show (some '\x7d' : Option Char) = some 'r' from
              congrArg List.head? ha2) (by decide)
          · exact absurd (show (some '\x7d' : Option Char) = some 'u' from
              congrArg List.head? ha2) (by decide)
          · exact absurd (show (some '\x7d' : Option Char) = some 'o' from
              congrArg List.head? ha2) (by decide)
          · exact absurd (show (some '\x7d' : Option Char) = some 's' from
              congrArg List.head? ha2) (by decide)
          · exact absurd (show (some '\x7d' : Option Char) = some 'e' from
              congrArg List.head? ha2) (by decide)
          · exact absurd (show (some '\x7d' : Option Char) = some 'r' from
              congrArg List.head? ha2) (by decide)
          · exact absurd (show (some '\x7d' : Option Char) = some '\n' from
              congrArg List.head? ha2) (by decide)
          · exact absurd (show (some '\x7d' : Option Char) = some '\n' from
              congrArg List.head? ha2) (by decide)
          · exact absurd (show (some 'r' : Option Char) = some '\n' from
              congrArg (fun t => t.tail.tail.head?) ha2) (by decide)
        · -- the occurrence lies entirely in the recursive output
          exact ih (List.drop 10 (c :: cs)) hdlen ⟨a2, v, by
            rw [List.append_assoc]
            exact ha2.symm⟩
      · simp only [replaceAux, if_neg hg] at h
        rcases List.infix_cons_iff.mp h with hpre | hinf
        · have heq : replaceAux resourceBoundary resourceBoundaryGapped (fuel + 1) (c :: cs) =
              c :: replaceAux resourceBoundary resourceBoundaryGapped fuel cs := by
            simp only [replaceAux, if_neg hg]
          have hin : resourceBoundary <+: c :: cs :=
            resourceGap_prefix_reflect (fuel + 1) (c :: cs) resourceBoundary (by decide)
              (List.suffix_refl _) (by rw [heq]; exact hpre)
          exact hg ⟨by decide, isPrefixOf_eq.mpr hin⟩
        · exact ih cs hlen' hinf

/-- After the gapping pass (on input without double newlines), every double
newline sits exactly inside a gapped boundary: the text before it ends with
`}` and the text after it starts with `resource`. -/
theorem resourceGap_blank_at_boundary :
    ∀ (fuel : Nat) (s : List Char), s.length ≤ fuel →
      ¬ (['\n', '\n'] : List Char) <:+: s →
      ∀ (l r : List Char),
        replaceAux resourceBoundary resourceBoundaryGapped fuel s = l ++ ['\n', '\n'] ++ r →
        l.getLast? = some '\x7d' ∧ (("resource").data <+: r) := by
  intro fuel
  induction fuel with
  | zero =>
    intro s hlen _ l r hout
    have hnil : s = [] := List.length_eq_zero.mp (Nat.le_zero.mp hlen)
    subst hnil
    exfalso
    have hcl := congrArg List.length hout
    simp only [replaceAux, List.length_append, List.length_nil, List.length_cons] at hcl
    omega
  | succ fuel ih =>
    intro s hlen hnn l r hout
    cases s with
    | nil =>
      exfalso
      simp only [replaceAux] at hout
      have hcl := congrArg List.length hout
      simp only [List.length_append, List.length_nil, List.length_cons] at hcl
      omega
    | cons c cs =>
      have hlen' : cs.length ≤ fuel := by
        simp only [List.length_cons] at hlen
        omega
      by_cases hg : resourceBoundary ≠ [] ∧ resourceBoundary.isPrefixOf (c :: cs)
      · simp only [replaceAux, if_pos hg] at hout
        rw [List.append_assoc] at hout
        have hdlen : (List.drop 10 (c :: cs)).length ≤ fuel := by
          simp only [List.length_drop, List.length_cons]
          omega
        have hdnn : ¬ (['\n', '\n'] : List Char) <:+: List.drop 10 (c :: cs) :=
          fun hh => hnn (infixOfInfixDrop hh)
        rcases List.append_eq_append_iff.mp hout with ⟨a2, ha1, ha2⟩ | ⟨a2, ha1, ha2⟩
        · have hres := ih (List.drop 10 (c :: cs)) hdlen hdnn a2 r
            (by rw [List.append_assoc]; exact ha2)
          have ha2ne : a2 ≠ [] := by
            intro hx
            rw [hx] at hres
            exact absurd hres.1 (by decide)
          refine ⟨?_, hres.2⟩
          rw [ha1, List.getLast?_append_of_ne_nil _ ha2ne]
          exact hres.1
        · have hsuf : a2 <:+ resourceBoundaryGapped := ⟨l, ha1.symm⟩
          obtain ⟨k, hk, hdrop⟩ : ∃ k, k ≤ 11 ∧
              a2 = List.drop (11 - k) resourceBoundaryGapped := by
            refine ⟨a2.length, by simpa using hsuf.length_le, ?_⟩
            simpa using List.suffix_iff_eq_drop.mp hsuf
          subst hdrop
          interval_cases k
          · exfalso
            have hres := ih (List.drop 10 (c :: cs)) hdlen hdnn [] r (by exact ha2.symm)
            exact absurd hres.1 (by decide)
          · exact absurd (show (some '\n' : Option Char) = some 'e' from
              congrArg List.head? ha2) (by decide)
          · exact absurd (show (some '\n' : Option Char) = some 'c' from
              congrArg List.head? ha2) (by decide)
          · exact absurd (show (some '\n' : Option Char) = some 'r' from
              congrArg List.head? ha2) (by decide)
          · exact absurd (show (some '\n' : Option Char) = some 'u' from
              congrArg List.head? ha2) (by decide)
          · exact absurd (show (some '\n' : Option Char) = some 'o' from
              congrArg List.head? ha2) (by decide)
          · exact absurd (show (some '\n' : Option Char) = some 's' from
              congrArg List.head? ha2) (by decide)
          · exact absurd (show (some '\n' : Option Char) = some 'e' from
              congrArg List.head? ha2) (by decide)
          · exact absurd (show (some '\n' : Option Char) = some 'r' from
              congrArg List.head? ha2) (by decide)
          · exact absurd (show (some '\n' : Option Char) = some 'r' from
              congrArg (fun t => t.tail.head?) ha2) (by decide)
          · -- the double newline sits exactly at the inserted gap
            constructor
            · have h1 : l ++ List.drop (11 - 10) resourceBoundaryGapped =
                  ['\x7d'] ++ List.drop (11 - 10) resourceBoundaryGapped :=
                ha1.symm.trans rfl
              rw [List.append_cancel_right h1]
              rfl
            · have h2 : r = ("resource").data ++
                  replaceAux resourceBoundary resourceBoundaryGapped fuel
                    (List.drop 10 (c :: cs)) := congrArg (List.drop 2) ha2
              exact ⟨_, h2.symm⟩
          · exact absurd (show (some '\n' : Option Char) = some '\x7d' from
              congrArg List.head? ha2) (by decide)
      · simp only [replaceAux, if_neg hg] at hout
        cases l with
        | nil =>
          exfalso
          have h1 : (c :: replaceAux resourceBoundary resourceBoundaryGapped fuel cs :
              List Char) = '\n' :: ('\n' :: r) := hout
          injection h1 with h2 h3
          have hR : (replaceAux resourceBoundary resourceBoundaryGapped fuel cs).head? =
              some '\n' := by
            rw [h3]
            rfl
          rcases replaceAux_head_mem (by decide) fuel cs '\n' hR with h4 | h4
          · exact absurd h4 (by decide)
          · apply hnn
            rcases cs with _ | ⟨d, ds⟩
            · simp at h4
            · have hd : d = '\n' := by simpa using h4
              subst hd
              subst h2
              exact infixOfPrefix (List.cons_prefix_cons.mpr ⟨rfl,
                List.cons_prefix_cons.mpr ⟨rfl, List.nil_prefix⟩⟩)
        | cons l0 l1 =>
          have h1 : (c :: replaceAux resourceBoundary resourceBoundaryGapped fuel cs :
              List Char) = l0 :: ((l1 ++ ['\n', '\n']) ++ r) := hout
          injection h1 with h2 h3
          have hres := ih cs hlen' (fun hh => hnn (infixOfInfixTail hh)) l1 r h3
          have hl1ne : l1 ≠ [] := by
            intro hx
            rw [hx] at hres
            exact absurd hres.1 (by decide)
          refine ⟨?_, hres.2⟩
          rw [getLast?_cons_of_ne hl1ne]
          exact hres.1

/-- C5 counterexample: a rendered text with three consecutive newlines inside
a block.  The single collapse pass (hcl.go line 132) replaces non-overlapping
`\n\n` occurrences once, leaving a blank line that is not at any
`}`/`resource` boundary, contradicting the claim that the normalization of
every rendered text has no blank lines inside blocks. -/
theorem C5_counterexample :
    normalizeWhitespace (("\x7b\n\n\n\x7d").data) =
        ['\x7b'] ++ ['\n', '\n'] ++ ['\x7d'] ∧
      ¬ ("resource").data <+: ['\x7d'] ∧
      (['\x7b'] : List Char).getLast? ≠ some '\x7d' :=
  ⟨rfl, by decide, by decide⟩

/-- C5 (amended): for every rendered text with no three consecutive newlines,
the whitespace-normalization step (hcl.go lines 131-135) yields text in which
every blank line (double newline) sits immediately between a closing brace
and the `resource` keyword, no triple newline occurs (so each boundary gets
exactly one blank line), and no boundary is left without its blank line.
For rendered texts with longer newline runs the normalization can leave blank
lines inside blocks, as the counterexample shows. -/
theorem C5_amended_whitespace (s : List Char)
    (h : ¬ ("\n\n\n").data <:+: s) :
    (¬ ("\n\n\n").data <:+: normalizeWhitespace s) ∧
      (∀ l r, normalizeWhitespace s = l ++ ("\n\n").data ++ r →
        l.getLast? = some '\x7d' ∧ ("resource").data <+: r) ∧
      (∀ l r, normalizeWhitespace s = l ++ resourceBoundary ++ r → False) := by
  have hs1 : ¬ (['\n', '\n'] : List Char) <:+: collapseBlankLines s :=
    collapse_no_double '\n' s.length s (Nat.le_refl _) h
  have hblank := resourceGap_blank_at_boundary (collapseBlankLines s).length
    (collapseBlankLines s) (Nat.le_refl _) hs1
  refine ⟨?_, hblank, ?_⟩
  · intro htriple
    obtain ⟨u, v, huv⟩ := htriple
    have hdecomp : normalizeWhitespace s = u ++ ("\n\n").data ++ ('\n' :: v) := by
      rw [← huv]
      simp
    have := (hblank u ('\n' :: v) hdecomp).2
    rcases List.cons_prefix_cons.mp this with ⟨hc, -⟩
    exact absurd hc (by decide)
  · intro l r hout
    exact resourceGap_no_bare (collapseBlankLines s).length (collapseBlankLines s)
      (Nat.le_refl _) ⟨l, r, hout.symm⟩

/-- C5 witness: a text with one boundary and no blank lines; normalization
inserts exactly one blank line at the boundary, and the amended theorem's
conclusions hold there. -/
theorem C5_witness :
    normalizeWhitespace (("x\x7d\nresource y").data) = ("x\x7d\n\nresource y").data ∧
      ¬ ("\n\n\n").data <:+: normalizeWhitespace (("x\x7d\nresource y").data) ∧
      ((("x\x7d").data).getLast? = some '\x7d' ∧
        ("resource").data <+: ("resource y").data) := by
  refine ⟨by decide, ?_, ?_⟩
  · exact (C5_amended_whitespace (("x\x7d\nresource y").data) (by decide)).1
  · exact (C5_amended_whitespace (("x\x7d\nresource y").data) (by decide)).2.1
      (("x\x7d").data) (("resource y").data) (by decide)

end Terraformer
